import Mathlib

/-!
Verification of the blobstore repository: a content-addressed, deduplicating
blob store layered on MongoDB GridFS (store.go), plus an older
timestamp-based variant with a bloom-filter garbage collector.

The embedding models the GridFS files collection as a list of documents
(filename, reference count, content).  Go strings used as filenames are
modelled as lists of characters (Go strings are byte slices; all names here
are ASCII).  Readers are lists of chunks of bytes; SHA-256 is implemented
in full so that concrete digests can be computed inside proofs.

Each store operation is a pure function on the collection state.  Operations
that issue several sequential database commands take an `Env` argument, a
state transformer applied between commands; it models interference by
concurrent writers (the sequential semantics instantiates it with the
identity `seqEnv`).
-/

namespace Blobstore

/-! SHA-256 over byte lists, following crypto/sha256 (FIPS 180-4). -/

/-- Addition modulo 2^32. -/
def add32 (a b : Nat) : Nat := (a + b) % 4294967296

/-- Rotate a 32-bit word right by `n`. -/
def rotr (n x : Nat) : Nat := (x >>> n) ||| ((x <<< (32 - n)) % 4294967296)

/-- Logical shift right. -/
def shr (n x : Nat) : Nat := x >>> n

/-- Bitwise complement on 32-bit words. -/
def not32 (x : Nat) : Nat := x ^^^ 4294967295

/-- The SHA-256 choice function. -/
def ch (e f g : Nat) : Nat := (e &&& f) ^^^ (not32 e &&& g)

/-- The SHA-256 majority function. -/
def maj (a b c : Nat) : Nat := (a &&& b) ^^^ (a &&& c) ^^^ (b &&& c)

/-- Big sigma-0 compression primitive. -/
def bigSigma0 (x : Nat) : Nat := rotr 2 x ^^^ rotr 13 x ^^^ rotr 22 x

/-- Big sigma-1 compression primitive. -/
def bigSigma1 (x : Nat) : Nat := rotr 6 x ^^^ rotr 11 x ^^^ rotr 25 x

/-- Small sigma-0 message-schedule primitive. -/
def smallSigma0 (x : Nat) : Nat := rotr 7 x ^^^ rotr 18 x ^^^ shr 3 x

/-- Small sigma-1 message-schedule primitive. -/
def smallSigma1 (x : Nat) : Nat := rotr 17 x ^^^ rotr 19 x ^^^ shr 10 x

/-- The 64 SHA-256 round constants (the fractional parts of the cube roots
of the first primes), written in decimal. -/
def K : List Nat :=
  [1116352408, 1899447441, 3049323471, 3921009573, 961987163,
   1508970993, 2453635748, 2870763221, 3624381080, 310598401,
   607225278, 1426881987, 1925078388, 2162078206, 2614888103,
   3248222580, 3835390401, 4022224774, 264347078, 604807628,
   770255983, 1249150122, 1555081692, 1996064986, 2554220882,
   2821834349, 2952996808, 3210313671, 3336571891, 3584528711,
   113926993, 338241895, 666307205, 773529912, 1294757372,
   1396182291, 1695183700, 1986661051, 2177026350, 2456956037,
   2730485921, 2820302411, 3259730800, 3345764771, 3516065817,
   3600352804, 4094571909, 275423344, 430227734, 506948616,
   659060556, 883997877, 958139571, 1322822218, 1537002063,
   1747873779, 1955562222, 2024104815, 2227730452, 2361852424,
   2428436474, 2756734187, 3204031479, 3329325298]

/-- The SHA-256 initial hash state, written in decimal. -/
def initH : List Nat :=
  [1779033703, 3144134277, 1013904242, 2773480762,
   1359893119, 2600822924, 528734635, 1541459225]

/-- A natural number as eight big-endian bytes. -/
def beBytes8 (n : Nat) : List Nat :=
  [n / 72057594037927936 % 256, n / 281474976710656 % 256, n / 1099511627776 % 256,
   n / 4294967296 % 256, n / 16777216 % 256, n / 65536 % 256, n / 256 % 256, n % 256]

/-- SHA-256 padding: a 0x80 byte, zeros to 56 mod 64, and the bit length. -/
def padMessage (m : List Nat) : List Nat :=
  m ++ [128] ++ List.replicate ((119 - m.length % 64) % 64) 0 ++ beBytes8 (8 * m.length)

/-- Big-endian bytes to 32-bit words. -/
def toWords : List Nat → List Nat
  | b0 :: b1 :: b2 :: b3 :: rest => (((b0 * 256 + b1) * 256 + b2) * 256 + b3) :: toWords rest
  | _ => []

/-- Words grouped into 16-word blocks. -/
def toBlocks : List Nat → List (List Nat)
  | w0 :: w1 :: w2 :: w3 :: w4 :: w5 :: w6 :: w7 ::
    w8 :: w9 :: w10 :: w11 :: w12 :: w13 :: w14 :: w15 :: rest =>
      [w0, w1, w2, w3, w4, w5, w6, w7, w8, w9, w10, w11, w12, w13, w14, w15] :: toBlocks rest
  | _ => []

/-- The 64-word message schedule extended from a 16-word block. -/
def schedule (ws : List Nat) : List Nat :=
  (List.range 48).foldl (fun w i =>
    w ++ [add32 (add32 (smallSigma1 (w.getD (i + 14) 0)) (w.getD (i + 9) 0))
            (add32 (smallSigma0 (w.getD (i + 1) 0)) (w.getD i 0))]) ws

/-- One SHA-256 compression round on the eight working variables. -/
def roundStep : List Nat → Nat × Nat → List Nat
  | [a, b, c, d, e, f, g, hh], kw =>
    let t1 := add32 hh (add32 (bigSigma1 e) (add32 (ch e f g) (add32 kw.1 kw.2)))
    let t2 := add32 (bigSigma0 a) (maj a b c)
    [add32 t1 t2, a, b, c, add32 d t1, e, f, g]
  | st, _ => st

/-- Process one 16-word block into the running hash state. -/
def processBlock (hh : List Nat) (block : List Nat) : List Nat :=
  let st := (K.zip (schedule block)).foldl roundStep hh
  (hh.zip st).map (fun p => add32 p.1 p.2)

/-- The SHA-256 digest (32 bytes) of a byte list. -/
def sha256 (m : List Nat) : List Nat :=
  let hh := (toBlocks (toWords (padMessage m))).foldl processBlock initH
  (hh.map (fun w => [w / 16777216 % 256, w / 65536 % 256, w / 256 % 256, w % 256])).flatten

/-- A hex digit character, lowercase for 10..15, as produced by Go fmt %x. -/
def hexDigitChar (n : Nat) : Char := Char.ofNat (if n < 10 then 48 + n else 87 + n)

/-- Two lowercase hex characters for one byte. -/
def byteHex (b : Nat) : List Char := [hexDigitChar (b / 16), hexDigitChar (b % 16)]

/-- The lowercase ASCII-hex SHA-256 digest of a byte list, as a string:
the Go expression fmt.Sprintf with verb x applied to sha256.Sum. -/
def sha256hex (m : List Nat) : String := String.mk ((sha256 m).map byteHex).flatten

/-- The bytes of an ASCII string, as Go obtains them from a string literal. -/
def strBytes (s : String) : List Nat := s.data.map Char.toNat

/-! The GridFS files collection, as used by store.go. -/

/-- One document of the GridFS files collection: object id, filename,
metadata.refcount and the blob content held by the chunks. -/
structure BlobDoc where
  id : Nat
  filename : List Char
  refcount : Int
  content : List Nat
deriving DecidableEq

/-- The files collection plus a source of fresh object ids. -/
structure StoreState where
  files : List BlobDoc
  nextId : Nat
deriving DecidableEq

/-- The characters of the Go constant string blob hyphen. -/
def blobChars : List Char := ['b', 'l', 'o', 'b', '-']

/-- hashName from store.go: the blob prefix concatenated with the hex hash. -/
def hashName (h : String) : List Char := blobChars ++ h.data

/-- The characters of the Go deleted hyphen name stem used by Remove. -/
def deletedChars : List Char := ['d', 'e', 'l', 'e', 't', 'e', 'd', '-']

/-- The tombstone name Remove builds from a fresh object id
(bson.NewObjectId().Hex() modelled by the fresh-id counter). -/
def deletedName (n : Nat) : List Char := deletedChars ++ (toString n).data

/-- Errors surfaced by the mgo driver that store.go distinguishes. -/
inductive MgoErr
  | notFound
  | dup
deriving DecidableEq

/-- Errors returned by store.go operations. -/
inductive StoreErr
  | mgo (e : MgoErr)
  | checksumMismatch
  | raceLost
  | wrappedInc (e : MgoErr)
deriving DecidableEq

/-- Find the first files document with the given filename
(mongo queries on filename; New creates a unique index on it). -/
def findFile (s : StoreState) (name : List Char) : Option BlobDoc :=
  s.files.find? (fun d => decide (d.filename = name))

/-- Increment metadata.refcount on the first document matching the filename. -/
def incFirst : List BlobDoc → List Char → Option (List BlobDoc)
  | [], _ => none
  | d :: rest, name =>
    if d.filename = name then some ({ d with refcount := d.refcount + 1 } :: rest)
    else (incFirst rest name).map (d :: ·)

/-- incRefCount from store.go: an Update with an inc modifier on refcount,
returning mgo NotFound when no document matches. -/
def incRefCount (s : StoreState) (blobRef : List Char) : Except MgoErr StoreState :=
  match incFirst s.files blobRef with
  | some fl => .ok { s with files := fl }
  | none => .error .notFound

/-- Find-and-modify with an inc of -1 and ReturnNew, as in Remove:
returns the decremented document and the updated collection. -/
def decFirst : List BlobDoc → List Char → Option (BlobDoc × List BlobDoc)
  | [], _ => none
  | d :: rest, name =>
    if d.filename = name then
      some ({ d with refcount := d.refcount - 1 }, { d with refcount := d.refcount - 1 } :: rest)
    else (decFirst rest name).map (fun p => (p.1, d :: p.2))

/-- Conditional rename: update the first document matching both the filename
and refcount zero, setting its filename; none models mgo NotFound. -/
def renameFirstZero : List BlobDoc → List Char → List Char → Option (List BlobDoc)
  | [], _, _ => none
  | d :: rest, name, newName =>
    if d.filename = name ∧ d.refcount = 0 then some ({ d with filename := newName } :: rest)
    else (renameFirstZero rest name newName).map (d :: ·)

/-- Closing a GridFS file inserts its files document; the unique index on
filename turns a clash into a duplicate-key error (mgo.IsDup). -/
def insertFile (s : StoreState) (blobRef : List Char) (content : List Nat) :
    Except MgoErr StoreState :=
  if s.files.any (fun d => decide (d.filename = blobRef)) then .error .dup
  else .ok { files := s.files ++ [⟨s.nextId, blobRef, 1, content⟩], nextId := s.nextId + 1 }

/-- GridFS Remove: delete every files document carrying the given name. -/
def removeAllName (fl : List BlobDoc) (name : List Char) : List BlobDoc :=
  fl.filter (fun d => decide (d.filename ≠ name))

/-- io.Copy through io.MultiWriter: every chunk read from the reader is
written both to the destination and to the hash accumulator, in order.
Returns (bytes written to destination, bytes fed to the hash). -/
def ioCopyMulti : List (List Nat) → List Nat × List Nat
  | [] => ([], [])
  | c :: rest =>
    let p := ioCopyMulti rest
    (c ++ p.1, c ++ p.2)

/-- copyAndCheckHash from store.go: stream the reader into the destination
while hashing, then compare the lowercase-hex digest with the claimed hash
by string equality.  Returns the bytes written and the error, if any. -/
def copyAndCheckHash (r : List (List Nat)) (sha256Hash : String) :
    List Nat × Option StoreErr :=
  let p := ioCopyMulti r
  if sha256hex p.2 ≠ sha256Hash then (p.1, some .checksumMismatch) else (p.1, none)

/-- Interference by concurrent writers: a state transformer applied between
consecutive database commands, indexed by the command position. -/
abbrev Env := Nat → StoreState → StoreState

/-- The sequential semantics: no concurrent interference. -/
def seqEnv : Env := fun _ s => s

/-- The outcome of Create: the alreadyExists flag, the error, the resulting
collection state, and how many bytes were consumed from the reader. -/
structure CreateResult where
  alreadyExists : Bool
  err : Option StoreErr
  state : StoreState
  bytesRead : Nat
deriving DecidableEq

/-- Create from store.go.  First try an atomic refcount increment; on
NotFound stream and hash-verify the reader into a new GridFS file; on a
duplicate-key commit conflict fall back to one refcount increment against
the winner, and if the winner vanished in between surface the fatal
duplicate-blob-removed error. -/
def Create (env : Env) (sha256Hash : String) (r : List (List Nat)) (s : StoreState) :
    CreateResult :=
  let blobRef := hashName sha256Hash
  let s0 := env 0 s
  match incRefCount s0 blobRef with
  | .ok s1 => ⟨true, none, s1, 0⟩
  | .error MgoErr.dup => ⟨false, some (.mgo .dup), s0, 0⟩
  | .error MgoErr.notFound =>
    let copied := copyAndCheckHash r sha256Hash
    match copied.2 with
    | some e => ⟨false, some e, s0, r.flatten.length⟩
    | none =>
      let s1 := env 1 s0
      match insertFile s1 blobRef copied.1 with
      | .ok s2 => ⟨false, none, s2, r.flatten.length⟩
      | .error MgoErr.dup =>
        let s2 := env 2 s1
        match incRefCount s2 blobRef with
        | .ok s3 => ⟨false, none, s3, r.flatten.length⟩
        | .error MgoErr.notFound => ⟨false, some .raceLost, s2, r.flatten.length⟩
        | .error e => ⟨false, some (.wrappedInc e), s2, r.flatten.length⟩
      | .error MgoErr.notFound => ⟨false, some (.mgo .notFound), s1, r.flatten.length⟩

/-- Remove from store.go.  Atomically decrement the refcount (find-and-modify
returning the new document); if it is still nonzero stop; otherwise rename
the document to a fresh tombstone name, conditional on the refcount still
being zero, and on success physically remove the tombstone.  A failed
condition means a concurrent Create revived the blob, and Remove succeeds
with no deletion. -/
def Remove (env : Env) (sha256Hash : String) (s : StoreState) :
    Option StoreErr × StoreState :=
  let blobRef := hashName sha256Hash
  match decFirst s.files blobRef with
  | none => (some (.mgo .notFound), s)
  | some p =>
    let s1 : StoreState := { s with files := p.2 }
    if p.1.refcount ≠ 0 then (none, s1)
    else
      let newName := deletedName s1.nextId
      let s2 := env 1 { s1 with nextId := s1.nextId + 1 }
      match renameFirstZero s2.files blobRef newName with
      | none => (none, s2)
      | some fl =>
        let s3 := env 2 { s2 with files := fl }
        (none, { s3 with files := removeAllName s3.files newName })

/-- Check from store.go: open by name, report existence and size (the model
backend fails only with NotFound, which Check converts to false, 0, nil). -/
def Check (s : StoreState) (sha256Hash : String) : Bool × Int × Option MgoErr :=
  match findFile s (hashName sha256Hash) with
  | some f => (true, (f.content.length : Int), none)
  | none => (false, 0, none)

/-- Open from store.go: the stored bytes, or mgo NotFound. -/
def Open (s : StoreState) (sha256hash : String) : Except MgoErr (List Nat) :=
  match findFile s (hashName sha256hash) with
  | some f => .ok f.content
  | none => .error .notFound

/-- The filenames of a collection are pairwise distinct: the invariant that
New establishes with its unique index on filename. -/
@[reducible] def uniqueNames (s : StoreState) : Prop :=
  (s.files.map (fun d => d.filename)).Nodup

/-- Freshness of the next tombstone name: no document already carries it
(mongo object ids are never reused). -/
@[reducible] def noDeletedClash (s : StoreState) : Prop :=
  ∀ d ∈ s.files, d.filename ≠ deletedName s.nextId

/-- The test string some file data, as bytes. -/
def dataBytes : List Nat := strBytes "some file data"

/-- The test string foo, as bytes. -/
def fooBytes : List Nat := strBytes "foo"

/-- The empty store. -/
def emptyStore : StoreState := ⟨[], 0⟩

/-- The uppercase-hex rendering of the SHA-256 digest of the test string
some file data; it denotes the same digest value as the lowercase form the
code computes, but differs from it as a string. -/
def upperHexD : String := "4B315C57E54E74DD3322654DB63597798747B763C43CF69F093CE935E3F04378"

end Blobstore

namespace BlobstoreGC

/-!
Model of the older timestamp-based variant (the second file under
src/unnamed/part_001): documents carry a creation time instead of a
reference count, and CollectGarbage sweeps stale unreferenced blobs using
a bloom filter built from the live-reference stream.
-/

/-- One files document of the timestamp-based variant. -/
structure GCDoc where
  id : Nat
  filename : List Char
  createtime : Nat
deriving DecidableEq

/-- The files collection of the timestamp-based variant. -/
structure GCState where
  files : List GCDoc
deriving DecidableEq

/-- The characters of the constant blobRef filename stem. -/
def blobPre : List Char := ['b', 'l', 'o', 'b', '-']

/-- The literal deleted filename that CollectGarbage renames victims to. -/
def deletedLit : List Char := ['d', 'e', 'l', 'e', 't', 'e', 'd']

/-- hashName of the timestamp-based variant. -/
def hashNameGC (h : List Char) : List Char := blobPre ++ h

/-- strings.HasPrefix on character lists. -/
def hasPre : List Char → List Char → Bool
  | [], _ => true
  | _ :: _, [] => false
  | a :: as, b :: bs => a = b && hasPre as bs

/-- Modelled from the spec: the sbloom filter (github.com/zeebo/sbloom is an
external dependency whose code is not part of this repository).  A bloom
filter over a family of hash functions: Add records the hash values of the
key; Lookup reports whether all of them have been recorded.  This realises
the contract in the spec that the filter never produces false negatives
while allowing false positives. -/
abbrev HashFns := List (List Char → Nat)

/-- Add a key to the bloom filter: record the value of every hash function. -/
def bloomAdd (hs : HashFns) (bits : List Nat) (ref : List Char) : List Nat :=
  bits ++ hs.map (fun f => f ref)

/-- Test a key against the bloom filter: every hash value must be recorded. -/
def bloomLookup (hs : HashFns) (bits : List Nat) (x : List Char) : Bool :=
  (hs.map (fun f => f x)).all (fun b => bits.contains b)

/-- The filter CollectGarbage builds by adding every consumed reference. -/
def buildFilter (hs : HashFns) (refs : List (List Char)) : List Nat :=
  refs.foldl (bloomAdd hs) []

/-- Files.Remove: delete the first document (in natural collection order)
carrying the given filename; absent is a no-op (NotFound is swallowed). -/
def removeFirstName : List GCDoc → List Char → List GCDoc
  | [], _ => []
  | d :: rest, f => if d.filename = f then rest else d :: removeFirstName rest f

/-- UpdateAll: rename every document matching the filename and still older
than the cutoff to the literal deleted name. -/
def renameStale (fl : List GCDoc) (f : List Char) (before : Nat) : List GCDoc :=
  fl.map (fun d =>
    if d.filename = f ∧ d.createtime < before then { d with filename := deletedLit } else d)

/-- Lexicographic filename order used by the sorted query. -/
def leStr : List Char → List Char → Bool
  | [], _ => true
  | _ :: _, [] => false
  | a :: as, b :: bs => if a = b then leStr as bs else decide (a.toNat < b.toNat)

/-- Insertion step of the sort on filenames. -/
def insertByName (d : GCDoc) : List GCDoc → List GCDoc
  | [] => [d]
  | e :: rest => if leStr d.filename e.filename then d :: e :: rest else e :: insertByName d rest

/-- The snapshot enumeration sorted by filename. -/
def sortByName : List GCDoc → List GCDoc
  | [] => []
  | d :: rest => insertByName d (sortByName rest)

/-- The scan loop of CollectGarbage over the sorted snapshot: skip non-blob
names; delete one duplicate record when the filename repeats; skip any hash
the filter reports live; otherwise rename still-stale records for deletion. -/
def gcLoop (hs : HashFns) (bits : List Nat) (before : Nat) :
    List GCDoc → List Char → GCState → GCState
  | [], _, s => s
  | doc :: rest, previousBlob, s =>
    if hasPre blobPre doc.filename then
      let s1 : GCState :=
        if doc.filename = previousBlob then ⟨removeFirstName s.files doc.filename⟩ else s
      if bloomLookup hs bits (doc.filename.drop blobPre.length) then
        gcLoop hs bits before rest doc.filename s1
      else
        gcLoop hs bits before rest doc.filename ⟨renameStale s1.files doc.filename before⟩
    else gcLoop hs bits before rest previousBlob s

/-- CollectGarbage from the timestamp-based variant: build the filter from
the live-reference stream, scan the records older than the cutoff sorted by
filename, and finally bulk-delete everything renamed to the deleted name. -/
def CollectGarbage (hs : HashFns) (refs : List (List Char)) (before : Nat) (s : GCState) :
    GCState :=
  let bits := buildFilter hs refs
  let snapshot := sortByName (s.files.filter (fun d => decide (d.createtime < before)))
  let s1 := gcLoop hs bits before snapshot [] s
  ⟨s1.files.filter (fun d => decide (d.filename ≠ deletedLit))⟩

/-- How many documents of a collection carry the given filename. -/
def countName (fl : List GCDoc) (f : List Char) : Nat :=
  (fl.filter (fun d => decide (d.filename = f))).length

/-- A one-hash-function family for concrete bloom-filter instances. -/
def lenFns : HashFns := [fun l => l.length]

end BlobstoreGC

namespace Blobstore

/-- Streaming through the multi-writer forwards every chunk, in order, both
to the destination and to the hash accumulator. -/
theorem ioCopyMulti_eq (r : List (List Nat)) : ioCopyMulti r = (r.flatten, r.flatten) := by
  induction r with
  | nil => rfl
  | cons c rest ih => simp [ioCopyMulti, ih, List.flatten]

/-- A name absent from the collection cannot have its refcount incremented. -/
theorem incFirst_eq_none (l : List BlobDoc) (name : List Char)
    (h : l.find? (fun d => decide (d.filename = name)) = none) : incFirst l name = none := by
  rw [List.find?_eq_none] at h
  induction l with
  | nil => rfl
  | cons d rest ih =>
    have hd : ¬ d.filename = name := by
      have := h d (List.mem_cons_self d rest)
      simpa using this
    have ht : incFirst rest name = none :=
      ih (fun x hx => h x (List.mem_cons_of_mem d hx))
    simp [incFirst, hd, ht]

/-- Incrementing the refcount of a present name updates exactly the first
matching document. -/
theorem incFirst_of_find? (l : List BlobDoc) (name : List Char) (doc : BlobDoc)
    (h : l.find? (fun d => decide (d.filename = name)) = some doc) :
    ∃ l', incFirst l name = some l' ∧
      l'.find? (fun d => decide (d.filename = name)) =
        some { doc with refcount := doc.refcount + 1 } := by
  induction l with
  | nil => simp [List.find?] at h
  | cons d rest ih =>
    by_cases hd : d.filename = name
    · rw [List.find?_cons_of_pos _ (by simpa using hd)] at h
      cases h
      refine ⟨{ doc with refcount := doc.refcount + 1 } :: rest, by simp [incFirst, hd], ?_⟩
      rw [List.find?_cons_of_pos _ (by simpa using hd)]
    · rw [List.find?_cons_of_neg _ (by simpa using hd)] at h
      obtain ⟨l', h1, h2⟩ := ih h
      refine ⟨d :: l', by simp [incFirst, hd, h1], ?_⟩
      rw [List.find?_cons_of_neg _ (by simpa using hd)]
      exact h2

/-- A name absent from the collection cannot be decremented. -/
theorem decFirst_eq_none (l : List BlobDoc) (name : List Char)
    (h : l.find? (fun d => decide (d.filename = name)) = none) : decFirst l name = none := by
  rw [List.find?_eq_none] at h
  induction l with
  | nil => rfl
  | cons d rest ih =>
    have hd : ¬ d.filename = name := by
      have := h d (List.mem_cons_self d rest)
      simpa using this
    have ht : decFirst rest name = none :=
      ih (fun x hx => h x (List.mem_cons_of_mem d hx))
    simp [decFirst, hd, ht]

/-- Decrementing a present name returns the decremented first match and
updates it in place. -/
theorem decFirst_of_find? (l : List BlobDoc) (name : List Char) (doc : BlobDoc)
    (h : l.find? (fun d => decide (d.filename = name)) = some doc) :
    ∃ l', decFirst l name = some ({ doc with refcount := doc.refcount - 1 }, l') ∧
      l'.find? (fun d => decide (d.filename = name)) =
        some { doc with refcount := doc.refcount - 1 } ∧
      l'.length = l.length := by
  induction l with
  | nil => simp [List.find?] at h
  | cons d rest ih =>
    by_cases hd : d.filename = name
    · rw [List.find?_cons_of_pos _ (by simpa using hd)] at h
      cases h
      refine ⟨{ doc with refcount := doc.refcount - 1 } :: rest,
        by simp [decFirst, hd], ?_, by simp⟩
      rw [List.find?_cons_of_pos _ (by simpa using hd)]
    · rw [List.find?_cons_of_neg _ (by simpa using hd)] at h
      obtain ⟨l', h1, h2, h3⟩ := ih h
      refine ⟨d :: l', by simp [decFirst, hd, h1], ?_, by simp [h3]⟩
      rw [List.find?_cons_of_neg _ (by simpa using hd)]
      exact h2

/-- Searching past a block with no match continues in the suffix. -/
theorem find?_append_none {p : BlobDoc → Bool} (l l₂ : List BlobDoc)
    (h : l.find? p = none) : (l ++ l₂).find? p = l₂.find? p := by
  induction l with
  | nil => rfl
  | cons d rest ih =>
    cases hp : p d with
    | true => rw [List.find?_cons_of_pos _ hp] at h; cases h
    | false =>
      rw [List.find?_cons_of_neg _ (by simp [hp])] at h
      rw [List.cons_append, List.find?_cons_of_neg _ (by simp [hp])]
      exact ih h

/-- When no document carries the name, the GridFS commit inserts the new
files document at the end of the collection. -/
theorem insertFile_of_absent (s : StoreState) (name : List Char) (c : List Nat)
    (h : findFile s name = none) :
    insertFile s name c = .ok ⟨s.files ++ [⟨s.nextId, name, 1, c⟩], s.nextId + 1⟩ := by
  have hany : s.files.any (fun d => decide (d.filename = name)) = false := by
    rw [List.any_eq_false]
    intro d hd
    have := List.find?_eq_none.mp h d hd
    simpa using this
  simp [insertFile, hany]

/-- When a document carries the name, the GridFS commit fails with a
duplicate-key error. -/
theorem insertFile_of_present (s : StoreState) (name : List Char) (c : List Nat) (doc : BlobDoc)
    (h : findFile s name = some doc) : insertFile s name c = .error .dup := by
  have hmem := List.mem_of_find?_eq_some h
  have hname : doc.filename = name := by
    have := List.find?_some h
    simpa using this
  have hany : s.files.any (fun d => decide (d.filename = name)) = true := by
    rw [List.any_eq_true]
    exact ⟨doc, hmem, by simp [hname]⟩
  simp [insertFile, hany]

/-- No document survives a filter that excludes its name. -/
theorem find?_filter_ne (l : List BlobDoc) (f : List Char) :
    (l.filter (fun d => decide (d.filename ≠ f))).find? (fun d => decide (d.filename = f)) =
      none := by
  rw [List.find?_eq_none]
  intro d hd
  have := (List.mem_filter.mp hd).2
  simpa using this

end Blobstore

namespace Blobstore

/-- Claim C9: the copy-and-verify step writes to the destination exactly the
bytes it reads from the source, in order and in full, even when the final
digest does not match the claimed hash; a mismatch affects only the
returned error, never the bytes written. -/
theorem copyAndCheckHash_pass_through (r : List (List Nat)) (h : String) :
    (copyAndCheckHash r h).1 = r.flatten ∧
      ((copyAndCheckHash r h).2 = none ↔ sha256hex r.flatten = h) := by
  unfold copyAndCheckHash
  rw [ioCopyMulti_eq]
  by_cases hm : sha256hex r.flatten = h
  · simp [hm]
  · simp [hm]

/-- Claim C2: Create on a hash whose blob record already exists returns
alreadyExists true with no error, increments the refcount of the existing
record, and consumes no bytes from the reader. -/
theorem create_dedup_increments (s : StoreState) (h : String) (r : List (List Nat))
    (doc : BlobDoc) (hf : findFile s (hashName h) = some doc) :
    (Create seqEnv h r s).alreadyExists = true ∧
    (Create seqEnv h r s).err = none ∧
    (Create seqEnv h r s).bytesRead = 0 ∧
    findFile (Create seqEnv h r s).state (hashName h) =
      some { doc with refcount := doc.refcount + 1 } := by
  obtain ⟨l', h1, h2⟩ := incFirst_of_find? s.files (hashName h) doc hf
  simp [Create, seqEnv, incRefCount, h1, findFile, h2]

/-- Witness for claim C2 at a concrete store. -/
theorem create_dedup_increments_witness :
    findFile ⟨[⟨0, hashName "aa", 3, [7]⟩], 1⟩ (hashName "aa") = some ⟨0, hashName "aa", 3, [7]⟩ ∧
    ((Create seqEnv "aa" [[9]] ⟨[⟨0, hashName "aa", 3, [7]⟩], 1⟩).alreadyExists = true ∧
     (Create seqEnv "aa" [[9]] ⟨[⟨0, hashName "aa", 3, [7]⟩], 1⟩).err = none ∧
     (Create seqEnv "aa" [[9]] ⟨[⟨0, hashName "aa", 3, [7]⟩], 1⟩).bytesRead = 0 ∧
     findFile (Create seqEnv "aa" [[9]] ⟨[⟨0, hashName "aa", 3, [7]⟩], 1⟩).state (hashName "aa") =
       some ⟨0, hashName "aa", 4, [7]⟩) :=
  ⟨by decide,
    create_dedup_increments ⟨[⟨0, hashName "aa", 3, [7]⟩], 1⟩ "aa" [[9]]
      ⟨0, hashName "aa", 3, [7]⟩ (by decide)⟩

/-- Claim C3: Create with a reader whose bytes do not hash to the claimed
hash fails with the checksum-mismatch error, leaves the collection exactly
as it was, and a subsequent Open of that hash reports NotFound. -/
theorem create_mismatch_rejected (s : StoreState) (h : String) (r : List (List Nat))
    (habs : findFile s (hashName h) = none) (hm : sha256hex r.flatten ≠ h) :
    (Create seqEnv h r s).alreadyExists = false ∧
    (Create seqEnv h r s).err = some StoreErr.checksumMismatch ∧
    (Create seqEnv h r s).state = s ∧
    Open (Create seqEnv h r s).state h = .error MgoErr.notFound := by
  have hinc := incFirst_eq_none s.files (hashName h) habs
  have habs' : List.find? (fun d => decide (d.filename = hashName h)) s.files = none := habs
  simp [Create, seqEnv, incRefCount, hinc, copyAndCheckHash, ioCopyMulti_eq, hm, Open, findFile,
    habs']

/-- Witness for claim C3 at a concrete store. -/
theorem create_mismatch_rejected_witness :
    findFile emptyStore (hashName "zz") = none ∧
    sha256hex ([[1]] : List (List Nat)).flatten ≠ "zz" ∧
    ((Create seqEnv "zz" [[1]] emptyStore).alreadyExists = false ∧
     (Create seqEnv "zz" [[1]] emptyStore).err = some StoreErr.checksumMismatch ∧
     (Create seqEnv "zz" [[1]] emptyStore).state = emptyStore ∧
     Open (Create seqEnv "zz" [[1]] emptyStore).state "zz" = .error MgoErr.notFound) :=
  ⟨by decide, by decide, create_mismatch_rejected emptyStore "zz" [[1]] (by decide) (by decide)⟩

/-- Claim C7 (amended): Remove on a hash with no live blob returns the mgo
NotFound error and leaves the store unchanged, for any interference. -/
theorem remove_absent_returns_notFound (env : Env) (s : StoreState) (h : String)
    (habs : findFile s (hashName h) = none) :
    Remove env h s = (some (StoreErr.mgo MgoErr.notFound), s) := by
  have hdec := decFirst_eq_none s.files (hashName h) habs
  simp [Remove, hdec]

/-- Witness for the amended claim C7 at a concrete store. -/
theorem remove_absent_returns_notFound_witness :
    findFile emptyStore (hashName "aa") = none ∧
    Remove seqEnv "aa" emptyStore = (some (StoreErr.mgo MgoErr.notFound), emptyStore) :=
  ⟨by decide, remove_absent_returns_notFound seqEnv emptyStore "aa" (by decide)⟩

/-- Counterexample to claim C7 as stated: Remove of an absent hash does not
return nil; it returns the NotFound error. -/
theorem remove_absent_not_nil_counterexample :
    (Remove seqEnv "aa" emptyStore).1 = some (StoreErr.mgo MgoErr.notFound) ∧
    (Remove seqEnv "aa" emptyStore).1 ≠ none := by
  exact ⟨by decide, by decide⟩

end Blobstore

namespace Blobstore

/-- Claim C1: after Create of a byte sequence under its own hex digest
succeeds on a store not yet holding that hash, Open of that digest succeeds
and returns exactly the stored bytes, whose digest equals the key. -/
theorem create_open_round_trip (d : List (List Nat)) (s : StoreState)
    (habs : findFile s (hashName (sha256hex d.flatten)) = none) :
    (Create seqEnv (sha256hex d.flatten) d s).err = none ∧
    (Create seqEnv (sha256hex d.flatten) d s).alreadyExists = false ∧
    ∃ bytes, Open (Create seqEnv (sha256hex d.flatten) d s).state (sha256hex d.flatten) =
        .ok bytes ∧ bytes = d.flatten ∧ sha256hex bytes = sha256hex d.flatten := by
  have hinc := incFirst_eq_none s.files (hashName (sha256hex d.flatten)) habs
  have hins := insertFile_of_absent s (hashName (sha256hex d.flatten)) d.flatten habs
  have habs' : List.find?
      (fun x => decide (x.filename = hashName (sha256hex d.flatten))) s.files = none := habs
  simp [Create, seqEnv, incRefCount, hinc, copyAndCheckHash, ioCopyMulti_eq, hins, Open,
    findFile, find?_append_none _ _ habs']

/-- Witness for claim C1 at a concrete byte sequence. -/
theorem create_open_round_trip_witness :
    findFile emptyStore (hashName (sha256hex ([[1, 2, 3]] : List (List Nat)).flatten)) = none ∧
    ((Create seqEnv (sha256hex ([[1, 2, 3]] : List (List Nat)).flatten) [[1, 2, 3]]
        emptyStore).err = none ∧
     (Create seqEnv (sha256hex ([[1, 2, 3]] : List (List Nat)).flatten) [[1, 2, 3]]
        emptyStore).alreadyExists = false ∧
     ∃ bytes, Open (Create seqEnv (sha256hex ([[1, 2, 3]] : List (List Nat)).flatten) [[1, 2, 3]]
          emptyStore).state (sha256hex ([[1, 2, 3]] : List (List Nat)).flatten) =
        .ok bytes ∧ bytes = ([[1, 2, 3]] : List (List Nat)).flatten ∧
        sha256hex bytes = sha256hex ([[1, 2, 3]] : List (List Nat)).flatten) :=
  ⟨by decide, create_open_round_trip [[1, 2, 3]] emptyStore (by decide)⟩

/-- Claim C10: on an absent hash, Create succeeds exactly when the claimed
hash is character for character the lowercase hex digest the code computes;
any other rendering of the digest, such as uppercase hex, is rejected. -/
theorem create_requires_exact_lowercase_hex (s : StoreState) (h : String) (r : List (List Nat))
    (habs : findFile s (hashName h) = none) :
    ((Create seqEnv h r s).err = none ↔ h = sha256hex r.flatten) := by
  have hinc := incFirst_eq_none s.files (hashName h) habs
  by_cases hm : sha256hex r.flatten = h
  · have hins := insertFile_of_absent s (hashName h) r.flatten habs
    simp [Create, seqEnv, incRefCount, hinc, copyAndCheckHash, ioCopyMulti_eq, hm, hins]
  · simp [Create, seqEnv, incRefCount, hinc, copyAndCheckHash, ioCopyMulti_eq, hm]
    exact fun heq => hm heq.symm

/-- Witness for claim C10: the uppercase-hex rendering of the correct digest
of the test data denotes the same digest but is rejected with an error. -/
theorem create_requires_exact_lowercase_hex_witness :
    findFile emptyStore (hashName upperHexD) = none ∧
    upperHexD.data.map Char.toLower = (sha256hex dataBytes).data ∧
    upperHexD ≠ sha256hex ([dataBytes] : List (List Nat)).flatten ∧
    (Create seqEnv upperHexD [dataBytes] emptyStore).err ≠ none := by
  refine ⟨by decide, by decide, by decide, fun hn => ?_⟩
  exact absurd
    ((create_requires_exact_lowercase_hex emptyStore upperHexD [dataBytes] (by decide)).mp hn)
    (by decide)

end Blobstore

namespace Blobstore

/-- Claim C8 (amended): the literal Check scenario with the correct size.
Before any Create the probe reports absent; Create of the test data under
its digest returns alreadyExists false with no error; Check then reports
present with size 14 (the byte length of the test string); probing the
digest of a different string still reports absent. -/
theorem check_literal_scenario (s : StoreState)
    (h1 : findFile s (hashName (sha256hex dataBytes)) = none)
    (h2 : findFile s (hashName (sha256hex fooBytes)) = none) :
    Check s (sha256hex dataBytes) = (false, 0, none) ∧
    (Create seqEnv (sha256hex dataBytes) [dataBytes] s).alreadyExists = false ∧
    (Create seqEnv (sha256hex dataBytes) [dataBytes] s).err = none ∧
    Check (Create seqEnv (sha256hex dataBytes) [dataBytes] s).state (sha256hex dataBytes) =
      (true, 14, none) ∧
    Check (Create seqEnv (sha256hex dataBytes) [dataBytes] s).state (sha256hex fooBytes) =
      (false, 0, none) := by
  have hinc := incFirst_eq_none s.files (hashName (sha256hex dataBytes)) h1
  have hins := insertFile_of_absent s (hashName (sha256hex dataBytes)) dataBytes h1
  have h1' : List.find?
      (fun x => decide (x.filename = hashName (sha256hex dataBytes))) s.files = none := h1
  have h2' : List.find?
      (fun x => decide (x.filename = hashName (sha256hex fooBytes))) s.files = none := h2
  have hlen : (dataBytes.length : Int) = 14 := by decide
  have hne : hashName (sha256hex dataBytes) ≠ hashName (sha256hex fooBytes) := by decide
  refine ⟨by simp [Check, h1], ?_⟩
  simp [Check, Create, seqEnv, incRefCount, hinc, copyAndCheckHash, ioCopyMulti_eq, hins,
    findFile, find?_append_none _ _ h1', find?_append_none _ _ h2', hlen, hne]

/-- Witness for the amended claim C8 on the empty store. -/
theorem check_literal_scenario_witness :
    findFile emptyStore (hashName (sha256hex dataBytes)) = none ∧
    findFile emptyStore (hashName (sha256hex fooBytes)) = none ∧
    (Check emptyStore (sha256hex dataBytes) = (false, 0, none) ∧
     (Create seqEnv (sha256hex dataBytes) [dataBytes] emptyStore).alreadyExists = false ∧
     (Create seqEnv (sha256hex dataBytes) [dataBytes] emptyStore).err = none ∧
     Check (Create seqEnv (sha256hex dataBytes) [dataBytes] emptyStore).state
        (sha256hex dataBytes) = (true, 14, none) ∧
     Check (Create seqEnv (sha256hex dataBytes) [dataBytes] emptyStore).state
        (sha256hex fooBytes) = (false, 0, none)) :=
  ⟨by decide, by decide, check_literal_scenario emptyStore (by decide) (by decide)⟩

/-- Counterexample to claim C8 as stated: after creating the fourteen-byte
test string, Check reports size 14, not 15. -/
theorem check_size_counterexample :
    Check (Create seqEnv (sha256hex dataBytes) [dataBytes] emptyStore).state
        (sha256hex dataBytes) = (true, 14, none) ∧
    Check (Create seqEnv (sha256hex dataBytes) [dataBytes] emptyStore).state
        (sha256hex dataBytes) ≠ (true, 15, none) :=
  ⟨by decide, by decide⟩

end Blobstore

namespace Blobstore

/-- The composite of Remove's zero path on the collection: decrement the
matching document, conditionally rename it while its count is zero, and
delete the tombstone; when the document is unique and the tombstone name is
fresh, the net effect is exactly the removal of that document. -/
theorem remove_chain (new : List Char) (l : List BlobDoc) (f : List Char) (doc : BlobDoc)
    (hfind : l.find? (fun d => decide (d.filename = f)) = some doc)
    (hone : doc.refcount = 1)
    (hnew : ∀ x ∈ l, x.filename ≠ new)
    (hnodup : (l.map (fun d => d.filename)).Nodup) :
    (decFirst l f).bind
        (fun p => (renameFirstZero p.2 f new).map (fun l₂ => removeAllName l₂ new)) =
      some (l.filter (fun d => decide (d.filename ≠ f))) := by
  induction l with
  | nil => simp [List.find?] at hfind
  | cons d rest ih =>
    by_cases hd : d.filename = f
    · rw [List.find?_cons_of_pos _ (by simpa using hd)] at hfind
      cases hfind
      have hrest_nof : ∀ x ∈ rest, ¬ x.filename = f := by
        intro x hx hxf
        have hmem : doc.filename ∈ rest.map (fun y => y.filename) :=
          List.mem_map.mpr ⟨x, hx, by rw [hxf, hd]⟩
        exact (List.nodup_cons.mp (by simpa using hnodup)).1 hmem
      have hrest_keep : rest.filter (fun x => decide (x.filename ≠ new)) = rest := by
        rw [List.filter_eq_self]
        intro x hx
        simpa using hnew x (List.mem_cons_of_mem doc hx)
      have hrest_keepf : rest.filter (fun x => decide (x.filename ≠ f)) = rest := by
        rw [List.filter_eq_self]
        intro x hx
        simpa using hrest_nof x hx
      have h1 : decFirst (doc :: rest) f =
          some ({ doc with refcount := doc.refcount - 1 },
            { doc with refcount := doc.refcount - 1 } :: rest) := by
        simp [decFirst, hd]
      have h2 : renameFirstZero ({ doc with refcount := doc.refcount - 1 } :: rest) f new =
          some ({ doc with refcount := doc.refcount - 1, filename := new } :: rest) := by
        simp [renameFirstZero, hd, hone]
      have h3 : removeAllName
          ({ doc with refcount := doc.refcount - 1, filename := new } :: rest) new = rest := by
        simp only [removeAllName, List.filter_cons]
        simp
        intro a ha
        exact hnew a (List.mem_cons_of_mem doc ha)
      have h4 : (doc :: rest).filter (fun x => !decide (x.filename = f)) = rest := by
        simp only [List.filter_cons]
        simp [hd]
        intro a ha
        exact hrest_nof a ha
      simp [h1, h2, h3]
      exact h4.symm
    · rw [List.find?_cons_of_neg _ (by simpa using hd)] at hfind
      have hnew' : ∀ x ∈ rest, x.filename ≠ new :=
        fun x hx => hnew x (List.mem_cons_of_mem d hx)
      have hnodup' : (rest.map (fun y => y.filename)).Nodup :=
        (List.nodup_cons.mp (by simpa using hnodup)).2
      have hchain := ih hfind hnew' hnodup'
      cases hdf : decFirst rest f with
      | none => rw [hdf] at hchain; simp at hchain
      | some p =>
        rw [hdf] at hchain
        rw [Option.some_bind] at hchain
        cases hren : renameFirstZero p.2 f new with
        | none => rw [hren] at hchain; simp at hchain
        | some l₂ =>
          rw [hren] at hchain
          rw [Option.map_some'] at hchain
          have hrem : removeAllName l₂ new = rest.filter (fun x => decide (x.filename ≠ f)) :=
            Option.some.inj hchain
          have hdnew : ¬ d.filename = new := hnew d (List.mem_cons_self d rest)
          have h5 : decFirst (d :: rest) f = some (p.1, d :: p.2) := by
            simp [decFirst, hd, hdf]
          have h6 : renameFirstZero (d :: p.2) f new = some (d :: l₂) := by
            simp [renameFirstZero, hd, hren]
          have h7 : removeAllName (d :: l₂) new = d :: removeAllName l₂ new := by
            simp only [removeAllName, List.filter_cons]
            simp [hdnew]
          have h8 : (d :: rest).filter (fun x => decide (x.filename ≠ f)) =
              d :: rest.filter (fun x => decide (x.filename ≠ f)) := by
            simp only [List.filter_cons]
            simp [hd]
          simp [h5, h6, h7, h8, hrem]
          simp [List.filter_cons, hd]

/-- Claim C4: Remove semantics on a live blob.  Part one: when the stored
refcount exceeds one, Remove decrements it atomically and returns success
with the blob record still present and its content unchanged.  Part two:
when the refcount is exactly one, Remove decrements it to zero, renames the
record to the fresh tombstone name under the condition that the count is
still zero, physically deletes the tombstone, and the net effect is exactly
the removal of that one record.  Part three: under any interference that
makes the conditional rename miss (the count was re-incremented in the
interim), Remove returns success and leaves the interfered state untouched. -/
theorem remove_spec :
    (∀ (s : StoreState) (h : String) (doc : BlobDoc),
      findFile s (hashName h) = some doc → 1 < doc.refcount →
      (Remove seqEnv h s).1 = none ∧
      findFile (Remove seqEnv h s).2 (hashName h) =
        some { doc with refcount := doc.refcount - 1 } ∧
      (Remove seqEnv h s).2.files.length = s.files.length) ∧
    (∀ (s : StoreState) (h : String) (doc : BlobDoc),
      findFile s (hashName h) = some doc → doc.refcount = 1 →
      uniqueNames s → noDeletedClash s →
      Remove seqEnv h s =
        (none, ⟨s.files.filter (fun d => decide (d.filename ≠ hashName h)), s.nextId + 1⟩) ∧
      findFile (Remove seqEnv h s).2 (hashName h) = none) ∧
    (∀ (env : Env) (s : StoreState) (h : String) (p : BlobDoc × List BlobDoc),
      decFirst s.files (hashName h) = some p → p.1.refcount = 0 →
      renameFirstZero (env 1 ⟨p.2, s.nextId + 1⟩).files (hashName h) (deletedName s.nextId) =
        none →
      Remove env h s = (none, env 1 ⟨p.2, s.nextId + 1⟩)) := by
  refine ⟨?_, ?_, ?_⟩
  · intro s h doc hf hgt
    obtain ⟨l', hdec, hfound, hlen⟩ := decFirst_of_find? s.files (hashName h) doc hf
    have hnz : ({ doc with refcount := doc.refcount - 1 } : BlobDoc).refcount ≠ 0 := by
      show doc.refcount - 1 ≠ 0
      omega
    simp [Remove, hdec, hnz, findFile, hfound, hlen]
  · intro s h doc hf hone hu hfresh
    obtain ⟨l', hdec, hfound, hlen⟩ := decFirst_of_find? s.files (hashName h) doc hf
    have hchain := remove_chain (deletedName s.nextId) s.files (hashName h) doc hf hone
      hfresh hu
    rw [hdec] at hchain
    rw [Option.some_bind] at hchain
    cases hren : renameFirstZero l' (hashName h) (deletedName s.nextId) with
    | none => rw [hren] at hchain; simp at hchain
    | some l₂ =>
      rw [hren] at hchain
      rw [Option.map_some'] at hchain
      have hrem := Option.some.inj hchain
      have hz' : doc.refcount - 1 = 0 := by omega
      simp only [ne_eq, decide_not] at hrem
      have hEq : Remove seqEnv h s =
          (none, ⟨s.files.filter (fun d => !decide (d.filename = hashName h)), s.nextId + 1⟩) := by
        simp [Remove, hdec, hz', seqEnv, hren, hrem]
      constructor
      · simpa only [ne_eq, decide_not] using hEq
      · rw [hEq]
        simp only [findFile]
        rw [List.find?_eq_none]
        intro x hx
        simpa using (List.mem_filter.mp hx).2
  · intro env s h p hdec hz hren
    simp [Remove, hdec, hz, hren]

/-- Witness for claim C4: the three Remove behaviours at concrete stores:
a refcount-two blob is decremented in place; a refcount-one blob is fully
removed; and re-incrementing interference between the decrement and the
conditional rename aborts the deletion. -/
theorem remove_spec_witness :
    (findFile ⟨[⟨0, hashName "aa", 2, [7]⟩], 5⟩ (hashName "aa") =
        some ⟨0, hashName "aa", 2, [7]⟩ ∧
      ((Remove seqEnv "aa" ⟨[⟨0, hashName "aa", 2, [7]⟩], 5⟩).1 = none ∧
       findFile (Remove seqEnv "aa" ⟨[⟨0, hashName "aa", 2, [7]⟩], 5⟩).2 (hashName "aa") =
         some ⟨0, hashName "aa", 1, [7]⟩ ∧
       (Remove seqEnv "aa" ⟨[⟨0, hashName "aa", 2, [7]⟩], 5⟩).2.files.length = 1)) ∧
    (Remove seqEnv "aa" ⟨[⟨0, hashName "aa", 1, [7]⟩], 5⟩ = (none, ⟨[], 6⟩) ∧
      findFile (Remove seqEnv "aa" ⟨[⟨0, hashName "aa", 1, [7]⟩], 5⟩).2 (hashName "aa") =
        none) ∧
    Remove (fun i st => if i = 1 then
        ⟨st.files.map (fun d => { d with refcount := d.refcount + 1 }), st.nextId⟩ else st)
      "aa" ⟨[⟨0, hashName "aa", 1, [7]⟩], 5⟩ = (none, ⟨[⟨0, hashName "aa", 1, [7]⟩], 6⟩) := by
  refine ⟨⟨by decide, remove_spec.1 ⟨[⟨0, hashName "aa", 2, [7]⟩], 5⟩ "aa"
      ⟨0, hashName "aa", 2, [7]⟩ (by decide) (by decide)⟩, ?_, ?_⟩
  · have := remove_spec.2.1 ⟨[⟨0, hashName "aa", 1, [7]⟩], 5⟩ "aa" ⟨0, hashName "aa", 1, [7]⟩
      (by decide) (by decide) (by decide) (by decide)
    simpa using this
  · exact remove_spec.2.2 (fun i st => if i = 1 then
        ⟨st.files.map (fun d => { d with refcount := d.refcount + 1 }), st.nextId⟩ else st)
      ⟨[⟨0, hashName "aa", 1, [7]⟩], 5⟩ "aa" (⟨0, hashName "aa", 0, [7]⟩, [⟨0, hashName "aa", 0, [7]⟩])
      (by decide) (by decide) (by decide)

end Blobstore

namespace Blobstore

/-- Claim C6: when Create loses the commit race (the initial increment found
no record, the bytes verified, and at commit time another writer's record
holds the key, so the insert fails with a duplicate-key conflict), Create
falls back to exactly one atomic increment against the winner.  If the
increment finds the record, Create returns alreadyExists false with no
error and the winner's refcount incremented, having read all the bytes.
If the record vanished in the window between the failed commit and the
increment, Create returns the fatal race-lost error, does not retry, and
synthesizes no blob: the state is exactly the interfered state. -/
theorem create_commit_race_fallback :
    (∀ (env : Env) (s : StoreState) (h : String) (r : List (List Nat)) (w d2 : BlobDoc),
      findFile (env 0 s) (hashName h) = none →
      sha256hex r.flatten = h →
      findFile (env 1 (env 0 s)) (hashName h) = some w →
      findFile (env 2 (env 1 (env 0 s))) (hashName h) = some d2 →
      (Create env h r s).alreadyExists = false ∧
      (Create env h r s).err = none ∧
      findFile (Create env h r s).state (hashName h) =
        some { d2 with refcount := d2.refcount + 1 } ∧
      (Create env h r s).bytesRead = r.flatten.length) ∧
    (∀ (env : Env) (s : StoreState) (h : String) (r : List (List Nat)) (w : BlobDoc),
      findFile (env 0 s) (hashName h) = none →
      sha256hex r.flatten = h →
      findFile (env 1 (env 0 s)) (hashName h) = some w →
      findFile (env 2 (env 1 (env 0 s))) (hashName h) = none →
      (Create env h r s).alreadyExists = false ∧
      (Create env h r s).err = some StoreErr.raceLost ∧
      (Create env h r s).state = env 2 (env 1 (env 0 s))) := by
  constructor
  · intro env s h r w d2 h0 hm h1 h2
    have hinc0 := incFirst_eq_none (env 0 s).files (hashName h) h0
    have hdup := insertFile_of_present (env 1 (env 0 s)) (hashName h) r.flatten w h1
    obtain ⟨l', hi1, hi2⟩ := incFirst_of_find? (env 2 (env 1 (env 0 s))).files (hashName h) d2 h2
    simp [Create, incRefCount, hinc0, copyAndCheckHash, ioCopyMulti_eq, hm, hdup, hi1,
      findFile, hi2]
  · intro env s h r w h0 hm h1 h2
    have hinc0 := incFirst_eq_none (env 0 s).files (hashName h) h0
    have hdup := insertFile_of_present (env 1 (env 0 s)) (hashName h) r.flatten w h1
    have hinc2 := incFirst_eq_none (env 2 (env 1 (env 0 s))).files (hashName h) h2
    simp [Create, incRefCount, hinc0, copyAndCheckHash, ioCopyMulti_eq, hm, hdup, hinc2]

/-- Witness for claim C6: a writer inserts the winning record at the commit
point; with no further interference the fallback increment succeeds, while
with the record removed again before the increment Create reports the
race-lost error. -/
theorem create_commit_race_fallback_witness :
    (findFile ((fun i (st : StoreState) => if i = 1 then
          ⟨st.files ++ [⟨50, hashName (sha256hex [1]), 1, [1]⟩], st.nextId⟩ else st) 0
        emptyStore) (hashName (sha256hex [1])) = none ∧
      sha256hex ([[1]] : List (List Nat)).flatten = sha256hex [1] ∧
      ((Create (fun i (st : StoreState) => if i = 1 then
          ⟨st.files ++ [⟨50, hashName (sha256hex [1]), 1, [1]⟩], st.nextId⟩ else st)
        (sha256hex [1]) [[1]] emptyStore).alreadyExists = false ∧
       (Create (fun i (st : StoreState) => if i = 1 then
          ⟨st.files ++ [⟨50, hashName (sha256hex [1]), 1, [1]⟩], st.nextId⟩ else st)
        (sha256hex [1]) [[1]] emptyStore).err = none ∧
       findFile (Create (fun i (st : StoreState) => if i = 1 then
          ⟨st.files ++ [⟨50, hashName (sha256hex [1]), 1, [1]⟩], st.nextId⟩ else st)
        (sha256hex [1]) [[1]] emptyStore).state (hashName (sha256hex [1])) =
         some ⟨50, hashName (sha256hex [1]), 2, [1]⟩ ∧
       (Create (fun i (st : StoreState) => if i = 1 then
          ⟨st.files ++ [⟨50, hashName (sha256hex [1]), 1, [1]⟩], st.nextId⟩ else st)
        (sha256hex [1]) [[1]] emptyStore).bytesRead = 1)) ∧
    ((Create (fun i (st : StoreState) => if i = 1 then
          ⟨st.files ++ [⟨50, hashName (sha256hex [1]), 1, [1]⟩], st.nextId⟩
        else if i = 2 then ⟨[], st.nextId⟩ else st)
        (sha256hex [1]) [[1]] emptyStore).err = some StoreErr.raceLost ∧
     (Create (fun i (st : StoreState) => if i = 1 then
          ⟨st.files ++ [⟨50, hashName (sha256hex [1]), 1, [1]⟩], st.nextId⟩
        else if i = 2 then ⟨[], st.nextId⟩ else st)
        (sha256hex [1]) [[1]] emptyStore).state = ⟨[], 0⟩) := by
  constructor
  · refine ⟨by decide, rfl, ?_⟩
    have hres := create_commit_race_fallback.1
      (fun i (st : StoreState) => if i = 1 then
        ⟨st.files ++ [⟨50, hashName (sha256hex [1]), 1, [1]⟩], st.nextId⟩ else st)
      emptyStore (sha256hex [1]) [[1]] ⟨50, hashName (sha256hex [1]), 1, [1]⟩
      ⟨50, hashName (sha256hex [1]), 1, [1]⟩ (by decide) rfl (by decide) (by decide)
    simpa using hres
  · have hres := create_commit_race_fallback.2
      (fun i (st : StoreState) => if i = 1 then
        ⟨st.files ++ [⟨50, hashName (sha256hex [1]), 1, [1]⟩], st.nextId⟩
      else if i = 2 then ⟨[], st.nextId⟩ else st)
      emptyStore (sha256hex [1]) [[1]] ⟨50, hashName (sha256hex [1]), 1, [1]⟩
      (by decide) rfl (by decide) (by decide)
    exact ⟨hres.2.1, hres.2.2⟩

end Blobstore


namespace BlobstoreGC

/-- Recorded filter bits are never lost by adding further references. -/
theorem bloom_bits_mono (hs : HashFns) (refs : List (List Char)) :
    ∀ (bits : List Nat) (b : Nat), b ∈ bits → b ∈ refs.foldl (bloomAdd hs) bits := by
  induction refs with
  | nil => intro bits b hb; simpa using hb
  | cons rf rest ih =>
    intro bits b hb
    exact ih (bloomAdd hs bits rf) b (by simp [bloomAdd]; exact Or.inl hb)

/-- Every hash value of an added reference is recorded in the final filter. -/
theorem bloom_mem_of_ref (hs : HashFns) (h : List Char) :
    ∀ (refs : List (List Char)) (bits : List Nat), h ∈ refs →
      ∀ g ∈ hs, g h ∈ refs.foldl (bloomAdd hs) bits := by
  intro refs
  induction refs with
  | nil => intro bits hmem; cases hmem
  | cons rf rest ih =>
    intro bits hmem g hg
    rcases List.mem_cons.mp hmem with heq | htail
    · subst heq
      exact bloom_bits_mono hs rest (bloomAdd hs bits h) (g h)
        (by simp [bloomAdd]; exact Or.inr ⟨g, hg, rfl⟩)
    · exact ih (bloomAdd hs bits rf) htail g hg

/-- The filter has no false negatives: a hash consumed from the reference
stream always tests present. -/
theorem bloom_no_false_neg (hs : HashFns) (refs : List (List Char)) (h : List Char)
    (hmem : h ∈ refs) : bloomLookup hs (buildFilter hs refs) h = true := by
  rw [bloomLookup, List.all_eq_true]
  intro b hb
  obtain ⟨g, hg, rfl⟩ := List.mem_map.mp hb
  have := bloom_mem_of_ref hs h refs [] hmem g hg
  rw [buildFilter]
  simpa [List.contains] using this

/-- The count of a name over a cons cell. -/
theorem countName_cons (d : GCDoc) (l : List GCDoc) (f : List Char) :
    countName (d :: l) f = countName l f + (if d.filename = f then 1 else 0) := by
  by_cases hdf : d.filename = f
  · simp [countName, List.filter_cons, hdf]
  · simp [countName, List.filter_cons, hdf]

/-- Removing one document of another name never touches this name's count. -/
theorem countName_removeFirst_ne (l : List GCDoc) (g f : List Char) (hne : g ≠ f) :
    countName (removeFirstName l g) f = countName l f := by
  induction l with
  | nil => rfl
  | cons d rest ih =>
    by_cases hd : d.filename = g
    · rw [show removeFirstName (d :: rest) g = rest from by simp [removeFirstName, hd]]
      rw [countName_cons]
      have hdf : ¬ d.filename = f := by rw [hd]; exact hne
      simp [hdf]
    · rw [show removeFirstName (d :: rest) g = d :: removeFirstName rest g from by
        simp [removeFirstName, hd]]
      rw [countName_cons, countName_cons, ih]

/-- Removing one document of this name costs at most one from its count. -/
theorem countName_removeFirst_self (l : List GCDoc) (f : List Char) :
    countName l f - 1 ≤ countName (removeFirstName l f) f := by
  induction l with
  | nil => exact Nat.le_refl 0
  | cons d rest ih =>
    by_cases hd : d.filename = f
    · rw [show removeFirstName (d :: rest) f = rest from by simp [removeFirstName, hd]]
      rw [countName_cons]
      simp [hd]
    · rw [show removeFirstName (d :: rest) f = d :: removeFirstName rest f from by
        simp [removeFirstName, hd]]
      rw [countName_cons, countName_cons]
      simp [hd]
      omega

/-- Renaming stale documents of another name to the deleted name never
touches this name's count, provided this name is not the deleted name. -/
theorem countName_renameStale (l : List GCDoc) (g : List Char) (before : Nat) (f : List Char)
    (hfg : f ≠ g) (hfd : f ≠ deletedLit) :
    countName (renameStale l g before) f = countName l f := by
  induction l with
  | nil => rfl
  | cons d rest ih =>
    by_cases hc : d.filename = g ∧ d.createtime < before
    · rw [show renameStale (d :: rest) g before =
          { d with filename := deletedLit } :: renameStale rest g before from by
        simp [renameStale, hc]]
      rw [countName_cons, countName_cons, ih]
      have h1 : ¬ ({ d with filename := deletedLit } : GCDoc).filename = f := by
        show ¬ deletedLit = f
        exact fun he => hfd he.symm
      have h2 : ¬ d.filename = f := by rw [hc.1]; exact fun he => hfg he.symm
      simp [h1, h2]
    · rw [show renameStale (d :: rest) g before = d :: renameStale rest g before from by
        simp [renameStale, hc]]
      rw [countName_cons, countName_cons, ih]

/-- Filtering can only lower a name's count. -/
theorem countName_filter_le (l : List GCDoc) (q : GCDoc → Bool) (f : List Char) :
    countName (l.filter q) f ≤ countName l f := by
  induction l with
  | nil => exact Nat.le_refl 0
  | cons d rest ih =>
    rw [countName_cons]
    by_cases hq : q d = true
    · rw [show (d :: rest).filter q = d :: rest.filter q from by simp [List.filter_cons, hq]]
      rw [countName_cons]
      omega
    · rw [show (d :: rest).filter q = rest.filter q from by
        simp [List.filter_cons, hq]]
      omega

/-- Filtering away the deleted name preserves any other name's count. -/
theorem countName_filter_deleted (l : List GCDoc) (f : List Char) (hfd : f ≠ deletedLit) :
    countName (l.filter (fun d => decide (d.filename ≠ deletedLit))) f = countName l f := by
  induction l with
  | nil => rfl
  | cons d rest ih =>
    rw [countName_cons]
    by_cases hd : d.filename = deletedLit
    · rw [show (d :: rest).filter (fun d => decide (d.filename ≠ deletedLit)) =
          rest.filter (fun d => decide (d.filename ≠ deletedLit)) from by
        simp [List.filter_cons, hd]]
      rw [ih]
      have hdf : ¬ d.filename = f := by rw [hd]; exact fun he => hfd he.symm
      simp [hdf]
    · rw [show (d :: rest).filter (fun d => decide (d.filename ≠ deletedLit)) =
          d :: rest.filter (fun d => decide (d.filename ≠ deletedLit)) from by
        simp [List.filter_cons, hd]]
      rw [countName_cons, ih]

/-- Insertion into the sorted snapshot preserves counts. -/
theorem countName_insertByName (d : GCDoc) (l : List GCDoc) (f : List Char) :
    countName (insertByName d l) f = countName (d :: l) f := by
  induction l with
  | nil => rfl
  | cons e rest ih =>
    by_cases hle : leStr d.filename e.filename = true
    · rw [show insertByName d (e :: rest) = d :: e :: rest from by simp [insertByName, hle]]
    · rw [show insertByName d (e :: rest) = e :: insertByName d rest from by
        simp [insertByName, hle]]
      rw [countName_cons, ih, countName_cons, countName_cons, countName_cons]
      omega

/-- Sorting the snapshot preserves counts. -/
theorem countName_sortByName (l : List GCDoc) (f : List Char) :
    countName (sortByName l) f = countName l f := by
  induction l with
  | nil => rfl
  | cons d rest ih =>
    rw [sortByName, countName_insertByName, countName_cons, ih, countName_cons]

/-- A positive count yields a document carrying the name. -/
theorem countName_pos (l : List GCDoc) (f : List Char) (h : 0 < countName l f) :
    ∃ d ∈ l, d.filename = f := by
  rw [countName, List.length_pos] at h
  obtain ⟨d, hd⟩ := List.exists_mem_of_ne_nil _ h
  have := List.mem_filter.mp hd
  exact ⟨d, this.1, by simpa using this.2⟩

/-- The blob name stem is a prefix of every blob name. -/
theorem hasPre_append (p t : List Char) : hasPre p (p ++ t) = true := by
  induction p with
  | nil => rfl
  | cons a as ih => simp [hasPre, ih]

end BlobstoreGC

namespace BlobstoreGC

/-- A blob name is never the literal deleted name. -/
theorem hashNameGC_ne_deleted (h : List Char) : hashNameGC h ≠ deletedLit := by
  simp [hashNameGC, blobPre, deletedLit]

/-- The scan loop can lose at most one record of a live hash per snapshot
entry carrying its name, and one less when the previous-blob register does
not already hold that name: a record of a hash the filter reports live is
never renamed, so only the duplicate cleanup can consume its records. -/
theorem gcLoop_count_bound (hs : HashFns) (bits : List Nat) (before : Nat) (h : List Char)
    (hlook : bloomLookup hs bits h = true) :
    ∀ (L : List GCDoc) (prev : List Char) (s : GCState),
      (countName s.files (hashNameGC h) - countName L (hashNameGC h) ≤
        countName (gcLoop hs bits before L prev s).files (hashNameGC h)) ∧
      (prev ≠ hashNameGC h →
        countName s.files (hashNameGC h) - (countName L (hashNameGC h) - 1) ≤
          countName (gcLoop hs bits before L prev s).files (hashNameGC h)) := by
  intro L
  induction L with
  | nil =>
    intro prev s
    refine ⟨?_, fun _ => ?_⟩
    · rw [show countName [] (hashNameGC h) = 0 from rfl]
      simp [gcLoop]
    · rw [show countName [] (hashNameGC h) = 0 from rfl]
      simp [gcLoop]
  | cons doc rest ih =>
    intro prev s
    have hproj : ∀ (fl : List GCDoc), (GCState.mk fl).files = fl := fun _ => rfl
    by_cases hpre : hasPre blobPre doc.filename = true
    · by_cases hdf : doc.filename = hashNameGC h
      · have hdrop : bloomLookup hs bits (doc.filename.drop blobPre.length) = true := by
          rw [hdf]
          exact hlook
        by_cases hprev : doc.filename = prev
        · subst hprev
          rw [show gcLoop hs bits before (doc :: rest) doc.filename s =
              gcLoop hs bits before rest doc.filename
                ⟨removeFirstName s.files doc.filename⟩ from by simp [gcLoop, hpre, hdrop]]
          rw [countName_cons]
          have hone : (if doc.filename = hashNameGC h then 1 else 0) = 1 := by simp [hdf]
          rw [hone]
          have hrem : countName s.files (hashNameGC h) - 1 ≤
              countName (removeFirstName s.files doc.filename) (hashNameGC h) := by
            rw [hdf]
            exact countName_removeFirst_self s.files (hashNameGC h)
          have hih := (ih doc.filename ⟨removeFirstName s.files doc.filename⟩).1
          simp only [hproj] at hih
          refine ⟨by omega, fun hne => absurd hdf hne⟩
        · rw [show gcLoop hs bits before (doc :: rest) prev s =
              gcLoop hs bits before rest doc.filename s from by
            simp [gcLoop, hpre, hdrop, hprev]]
          rw [countName_cons]
          have hone : (if doc.filename = hashNameGC h then 1 else 0) = 1 := by simp [hdf]
          rw [hone]
          have hih := (ih doc.filename s).1
          exact ⟨by omega, fun _ => by omega⟩
      · by_cases hlk : bloomLookup hs bits (doc.filename.drop blobPre.length) = true
        · by_cases hprev : doc.filename = prev
          · subst hprev
            rw [show gcLoop hs bits before (doc :: rest) doc.filename s =
                gcLoop hs bits before rest doc.filename
                  ⟨removeFirstName s.files doc.filename⟩ from by simp [gcLoop, hpre, hlk]]
            rw [countName_cons]
            have hzero : (if doc.filename = hashNameGC h then 1 else 0) = 0 := by simp [hdf]
            rw [hzero]
            have hcount := countName_removeFirst_ne s.files doc.filename (hashNameGC h) hdf
            have hih := (ih doc.filename ⟨removeFirstName s.files doc.filename⟩).2 hdf
            simp only [hproj] at hih
            exact ⟨by omega, fun _ => by omega⟩
          · rw [show gcLoop hs bits before (doc :: rest) prev s =
                gcLoop hs bits before rest doc.filename s from by
              simp [gcLoop, hpre, hlk, hprev]]
            rw [countName_cons]
            have hzero : (if doc.filename = hashNameGC h then 1 else 0) = 0 := by simp [hdf]
            rw [hzero]
            have hih := (ih doc.filename s).2 hdf
            exact ⟨by omega, fun _ => by omega⟩
        · by_cases hprev : doc.filename = prev
          · subst hprev
            rw [show gcLoop hs bits before (doc :: rest) doc.filename s =
                gcLoop hs bits before rest doc.filename
                  ⟨renameStale (removeFirstName s.files doc.filename) doc.filename before⟩
                from by simp [gcLoop, hpre, hlk]]
            rw [countName_cons]
            have hzero : (if doc.filename = hashNameGC h then 1 else 0) = 0 := by simp [hdf]
            rw [hzero]
            have hcount := countName_removeFirst_ne s.files doc.filename (hashNameGC h) hdf
            have hcount2 := countName_renameStale (removeFirstName s.files doc.filename)
              doc.filename before (hashNameGC h) (fun he => hdf he.symm)
              (hashNameGC_ne_deleted h)
            have hih := (ih doc.filename
              ⟨renameStale (removeFirstName s.files doc.filename) doc.filename before⟩).2 hdf
            simp only [hproj] at hih
            exact ⟨by omega, fun _ => by omega⟩
          · rw [show gcLoop hs bits before (doc :: rest) prev s =
                gcLoop hs bits before rest doc.filename
                  ⟨renameStale s.files doc.filename before⟩ from by
              simp [gcLoop, hpre, hlk, hprev]]
            rw [countName_cons]
            have hzero : (if doc.filename = hashNameGC h then 1 else 0) = 0 := by simp [hdf]
            rw [hzero]
            have hcount2 := countName_renameStale s.files doc.filename before (hashNameGC h)
              (fun he => hdf he.symm) (hashNameGC_ne_deleted h)
            have hih := (ih doc.filename ⟨renameStale s.files doc.filename before⟩).2 hdf
            simp only [hproj] at hih
            exact ⟨by omega, fun _ => by omega⟩
    · have hdf : ¬ doc.filename = hashNameGC h := by
        intro he
        rw [he] at hpre
        exact hpre (hasPre_append blobPre h)
      rw [show gcLoop hs bits before (doc :: rest) prev s =
          gcLoop hs bits before rest prev s from by simp [gcLoop, hpre]]
      rw [countName_cons]
      have hzero : (if doc.filename = hashNameGC h then 1 else 0) = 0 := by simp [hdf]
      rw [hzero]
      refine ⟨by have := (ih prev s).1; omega, fun hne => by have := (ih prev s).2 hne; omega⟩

end BlobstoreGC

namespace BlobstoreGC

/-- Deleting one document of a different name leaves a record untouched. -/
theorem mem_removeFirstName_of_ne (l : List GCDoc) (g : List Char) (d : GCDoc)
    (hd : d ∈ l) (hne : d.filename ≠ g) : d ∈ removeFirstName l g := by
  induction l with
  | nil => cases hd
  | cons e rest ih =>
    by_cases he : e.filename = g
    · rw [show removeFirstName (e :: rest) g = rest from by simp [removeFirstName, he]]
      rcases List.mem_cons.mp hd with heq | ht
      · subst heq
        exact absurd he hne
      · exact ht
    · rw [show removeFirstName (e :: rest) g = e :: removeFirstName rest g from by
        simp [removeFirstName, he]]
      rcases List.mem_cons.mp hd with heq | ht
      · rw [heq]
        exact List.mem_cons_self e _
      · exact List.mem_cons_of_mem e (ih ht)

/-- Renaming stale documents of a different name leaves a record untouched. -/
theorem mem_renameStale_of_ne (l : List GCDoc) (g : List Char) (before : Nat) (d : GCDoc)
    (hd : d ∈ l) (hne : d.filename ≠ g) : d ∈ renameStale l g before := by
  rw [renameStale]
  refine List.mem_map.mpr ⟨d, hd, ?_⟩
  rw [if_neg]
  intro hc
  exact hne hc.1

/-- A record whose hash the filter reports live is skipped by the scan loop:
as long as the remaining snapshot holds no duplicate of its key (none at
all once the previous-blob register already holds that key), the record
itself survives the loop — it is neither renamed nor deleted. -/
theorem gcLoop_mem_preserved (hs : HashFns) (bits : List Nat) (before : Nat) (x : List Char)
    (hlook : bloomLookup hs bits x = true) :
    ∀ (L : List GCDoc) (prev : List Char) (s : GCState) (d : GCDoc),
      d ∈ s.files → d.filename = hashNameGC x →
      (countName L (hashNameGC x) = 0 ∨
        (countName L (hashNameGC x) ≤ 1 ∧ prev ≠ hashNameGC x)) →
      d ∈ (gcLoop hs bits before L prev s).files := by
  intro L
  induction L with
  | nil =>
    intro prev s d hd _ _
    simpa [gcLoop] using hd
  | cons doc rest ih =>
    intro prev s d hd hdf hdis
    by_cases hpre : hasPre blobPre doc.filename = true
    · by_cases hdoc : doc.filename = hashNameGC x
      · have hone : (if doc.filename = hashNameGC x then 1 else 0) = 1 := by simp [hdoc]
        rw [countName_cons, hone] at hdis
        rcases hdis with h0 | ⟨hle, hprevne⟩
        · omega
        · have hzero : countName rest (hashNameGC x) = 0 := by omega
          have hprev : ¬ doc.filename = prev := fun he => hprevne (he.symm.trans hdoc)
          have hdrop : bloomLookup hs bits (doc.filename.drop blobPre.length) = true := by
            rw [hdoc]
            exact hlook
          rw [show gcLoop hs bits before (doc :: rest) prev s =
              gcLoop hs bits before rest doc.filename s from by
            simp [gcLoop, hpre, hprev, hdrop]]
          exact ih doc.filename s d hd hdf (Or.inl hzero)
      · have hzero : (if doc.filename = hashNameGC x then 1 else 0) = 0 := by simp [hdoc]
        rw [countName_cons, hzero] at hdis
        have hdne : d.filename ≠ doc.filename := by
          rw [hdf]
          exact fun he => hdoc he.symm
        have hdis' : countName rest (hashNameGC x) = 0 ∨
            (countName rest (hashNameGC x) ≤ 1 ∧ doc.filename ≠ hashNameGC x) := by
          rcases hdis with h0 | ⟨hle, _⟩
          · exact Or.inl (by omega)
          · exact Or.inr ⟨by omega, hdoc⟩
        by_cases hlk : bloomLookup hs bits (doc.filename.drop blobPre.length) = true
        · by_cases hprev : doc.filename = prev
          · subst hprev
            rw [show gcLoop hs bits before (doc :: rest) doc.filename s =
                gcLoop hs bits before rest doc.filename
                  ⟨removeFirstName s.files doc.filename⟩ from by simp [gcLoop, hpre, hlk]]
            exact ih doc.filename ⟨removeFirstName s.files doc.filename⟩ d
              (mem_removeFirstName_of_ne s.files doc.filename d hd hdne) hdf hdis'
          · rw [show gcLoop hs bits before (doc :: rest) prev s =
                gcLoop hs bits before rest doc.filename s from by
              simp [gcLoop, hpre, hprev, hlk]]
            exact ih doc.filename s d hd hdf hdis'
        · by_cases hprev : doc.filename = prev
          · subst hprev
            rw [show gcLoop hs bits before (doc :: rest) doc.filename s =
                gcLoop hs bits before rest doc.filename
                  ⟨renameStale (removeFirstName s.files doc.filename) doc.filename before⟩
                from by simp [gcLoop, hpre, hlk]]
            exact ih doc.filename
              ⟨renameStale (removeFirstName s.files doc.filename) doc.filename before⟩ d
              (mem_renameStale_of_ne (removeFirstName s.files doc.filename) doc.filename
                before d (mem_removeFirstName_of_ne s.files doc.filename d hd hdne) hdne)
              hdf hdis'
          · rw [show gcLoop hs bits before (doc :: rest) prev s =
                gcLoop hs bits before rest doc.filename
                  ⟨renameStale s.files doc.filename before⟩ from by
              simp [gcLoop, hpre, hprev, hlk]]
            exact ih doc.filename ⟨renameStale s.files doc.filename before⟩ d
              (mem_renameStale_of_ne s.files doc.filename before d hd hdne) hdf hdis'
    · have hdoc : ¬ doc.filename = hashNameGC x := by
        intro he
        rw [he] at hpre
        exact hpre (hasPre_append blobPre x)
      have hzero : (if doc.filename = hashNameGC x then 1 else 0) = 0 := by simp [hdoc]
      rw [countName_cons, hzero] at hdis
      rw [show gcLoop hs bits before (doc :: rest) prev s =
          gcLoop hs bits before rest prev s from by simp [gcLoop, hpre]]
      refine ih prev s d hd hdf ?_
      rcases hdis with h0 | ⟨hle, hpr⟩
      · exact Or.inl (by omega)
      · exact Or.inr ⟨by omega, hpr⟩

/-- Claim C5 (amended): a garbage-collection pass never loses a live blob.
First, every hash consumed from the live-reference stream tests present in
the filter (no false negatives).  Second, whenever a record for such a hash
exists before the pass, at least one record for it survives the pass.
Third, every candidate record whose hash tests present in the filter —
whether genuinely live or a false positive — and whose key is not
duplicated is skipped unconditionally, regardless of its age: the record
itself survives the pass, neither renamed for deletion nor deleted; only
the duplicate-artifact cleanup may remove surplus records sharing a key. -/
theorem collectGarbage_live_blob_survives (hs : HashFns) (refs : List (List Char))
    (before : Nat) (s : GCState) (h : List Char) (hmem : h ∈ refs) :
    bloomLookup hs (buildFilter hs refs) h = true ∧
    ((∃ d ∈ s.files, d.filename = hashNameGC h) →
      ∃ d ∈ (CollectGarbage hs refs before s).files, d.filename = hashNameGC h) ∧
    (∀ (x : List Char) (d : GCDoc),
      bloomLookup hs (buildFilter hs refs) x = true →
      d ∈ s.files → d.filename = hashNameGC x →
      countName s.files (hashNameGC x) ≤ 1 →
      d ∈ (CollectGarbage hs refs before s).files) := by
  have hlook := bloom_no_false_neg hs refs h hmem
  refine ⟨hlook, ?_, ?_⟩
  · rintro ⟨d, hd, hdf⟩
    have hfd : hashNameGC h ≠ deletedLit := hashNameGC_ne_deleted h
    have hpos : 0 < countName s.files (hashNameGC h) := by
      have hmemf : d ∈ s.files.filter (fun x => decide (x.filename = hashNameGC h)) :=
        List.mem_filter.mpr ⟨hd, by simp [hdf]⟩
      have := List.length_pos.mpr (List.ne_nil_of_mem hmemf)
      simpa [countName] using this
    have hsnap_le : countName
        (sortByName (s.files.filter (fun x => decide (x.createtime < before))))
        (hashNameGC h) ≤ countName s.files (hashNameGC h) := by
      rw [countName_sortByName]
      exact countName_filter_le s.files _ (hashNameGC h)
    have hbound := (gcLoop_count_bound hs (buildFilter hs refs) before h hlook
      (sortByName (s.files.filter (fun x => decide (x.createtime < before)))) [] s).2
      (by simp [hashNameGC, blobPre])
    have hfinal : countName (CollectGarbage hs refs before s).files (hashNameGC h) =
        countName (gcLoop hs (buildFilter hs refs) before
          (sortByName (s.files.filter (fun x => decide (x.createtime < before)))) [] s).files
          (hashNameGC h) := by
      show countName ((gcLoop hs (buildFilter hs refs) before
          (sortByName (s.files.filter (fun x => decide (x.createtime < before)))) [] s).files.filter
            (fun x => decide (x.filename ≠ deletedLit))) (hashNameGC h) = _
      exact countName_filter_deleted _ (hashNameGC h) hfd
    exact countName_pos _ (hashNameGC h) (by omega)
  · intro x d hlookx hd hdf hcount
    have hsnap : countName
        (sortByName (s.files.filter (fun y => decide (y.createtime < before))))
        (hashNameGC x) ≤ 1 := by
      rw [countName_sortByName]
      exact Nat.le_trans (countName_filter_le s.files _ (hashNameGC x)) hcount
    have hloop := gcLoop_mem_preserved hs (buildFilter hs refs) before x hlookx
      (sortByName (s.files.filter (fun y => decide (y.createtime < before)))) [] s d hd hdf
      (Or.inr ⟨hsnap, by simp [hashNameGC, blobPre]⟩)
    show d ∈ (gcLoop hs (buildFilter hs refs) before
        (sortByName (s.files.filter (fun y => decide (y.createtime < before)))) [] s).files.filter
          (fun y => decide (y.filename ≠ deletedLit))
    refine List.mem_filter.mpr ⟨hloop, ?_⟩
    simp only [hdf, decide_eq_true_eq]
    exact hashNameGC_ne_deleted x

/-- Witness for the amended claim C5 at a concrete store: the filter
reports the referenced hash present, a record for it survives the pass,
and the unduplicated record itself is carried through untouched. -/
theorem collectGarbage_live_blob_survives_witness :
    (['a'] ∈ [['a']] ∧
      bloomLookup lenFns (buildFilter lenFns [['a']]) ['a'] = true) ∧
    (∃ d ∈ (CollectGarbage lenFns [['a']] 1 ⟨[⟨1, hashNameGC ['a'], 0⟩]⟩).files,
      d.filename = hashNameGC ['a']) ∧
    (countName [⟨1, hashNameGC ['a'], 0⟩] (hashNameGC ['a']) ≤ 1 ∧
      (⟨1, hashNameGC ['a'], 0⟩ : GCDoc) ∈
        (CollectGarbage lenFns [['a']] 1 ⟨[⟨1, hashNameGC ['a'], 0⟩]⟩).files) :=
  ⟨⟨by decide, (collectGarbage_live_blob_survives lenFns [['a']] 1 ⟨[⟨1, hashNameGC ['a'], 0⟩]⟩
      ['a'] (by decide)).1⟩,
    (collectGarbage_live_blob_survives lenFns [['a']] 1 ⟨[⟨1, hashNameGC ['a'], 0⟩]⟩
      ['a'] (by decide)).2.1 ⟨⟨1, hashNameGC ['a'], 0⟩, by decide, rfl⟩,
    by decide,
    (collectGarbage_live_blob_survives lenFns [['a']] 1 ⟨[⟨1, hashNameGC ['a'], 0⟩]⟩
      ['a'] (by decide)).2.2 ['a'] ⟨1, hashNameGC ['a'], 0⟩ (by decide) (by decide) rfl
      (by decide)⟩

/-- Counterexample to claim C5 as stated: with two records sharing a live
blob key, the duplicate cleanup deletes one of them during the pass even
though its hash tests present in the filter, so a candidate record whose
hash tests present is not always left untouched. -/
theorem collectGarbage_dup_record_counterexample :
    bloomLookup lenFns (buildFilter lenFns [['h']]) ['h'] = true ∧
    (⟨1, hashNameGC ['h'], 0⟩ : GCDoc) ∈
      (⟨[⟨1, hashNameGC ['h'], 0⟩, ⟨2, hashNameGC ['h'], 0⟩]⟩ : GCState).files ∧
    (CollectGarbage lenFns [['h']] 1
        ⟨[⟨1, hashNameGC ['h'], 0⟩, ⟨2, hashNameGC ['h'], 0⟩]⟩).files =
      [⟨2, hashNameGC ['h'], 0⟩] ∧
    (⟨1, hashNameGC ['h'], 0⟩ : GCDoc) ∉
      (CollectGarbage lenFns [['h']] 1
        ⟨[⟨1, hashNameGC ['h'], 0⟩, ⟨2, hashNameGC ['h'], 0⟩]⟩).files :=
  ⟨by decide, by decide, by decide, by decide⟩

end BlobstoreGC
